import Mathlib

/-!
A verification development for `lockfreequeue`, a Michael–Scott style
non-blocking FIFO queue (Go, `lockfreequeue.go`).

The embedding is a sequential shallow embedding of the pointer algorithm:
nodes live in an explicit heap (a list indexed by natural-number
addresses, allocation appends), `head` and `tail` are addresses, and a
node's `next` field is `Option Nat` (`none` is the null pointer).  The
retry loops of `Enqueue` and `Dequeue` are translated literally,
iteration by iteration, with an explicit fuel parameter standing for the
unbounded `for` loop; every atomic load, the consistency re-checks
(`tail == load(&q.tail)`, `head == load(&q.head)`) and every CAS compare
are kept.  In a sequential execution no other thread runs between a load
and the matching CAS, so each re-read returns the value already in the
state — the checks are retained verbatim and discharged in the proofs.
A null-pointer dereference of the Go code is modelled as `Option.none`
(a crash), so totality statements are meaningful.
-/

/-- Mirror of `type node[T any] struct { value T; next unsafe.Pointer }`:
one value slot and one pointer to the following node (or null). -/
structure node (T : Type) where
  value : T
  next : Option Nat
  deriving DecidableEq, Repr

/-- Mirror of `type LockFreeQueue[T any] struct { head, tail unsafe.Pointer }`,
together with the explicit heap of allocated nodes that the shallow
embedding needs in order to dereference addresses. -/
structure LockFreeQueue (T : Type) where
  heap : List (node T)
  head : Nat
  tail : Nat
  deriving DecidableEq, Repr

set_option linter.unusedSectionVars false

variable {T : Type} [Inhabited T]

/-- Mirror of `func New[T any]() *LockFreeQueue[T]`: allocate one dummy
node (Go zero value, null `next`) and point both `head` and `tail` at it. -/
def New (T : Type) [Inhabited T] : LockFreeQueue T :=
  ⟨[⟨default, none⟩], 0, 0⟩

/-- One-iteration-at-a-time translation of the retry loop of
`func (q *LockFreeQueue[T]) Enqueue(v T)`, after the new node has already
been allocated at address `addr`.  `fuel` bounds the number of loop
iterations; running out of fuel (or dereferencing null) yields `none`. -/
def enqueueAux (addr : Nat) : LockFreeQueue T → Nat → Option (LockFreeQueue T)
  | _, 0 => none
  | s, fuel + 1 =>
    -- tail := load[T](&q.tail)
    let t := s.tail
    match s.heap[t]? with
    | none => none
    | some tn =>
      -- next := load[T](&tail.next)
      let nx := tn.next
      -- if tail == load[T](&q.tail)   (sequential re-read: same state)
      if s.tail = t then
        match nx with
        | none =>
          -- if cas(&tail.next, next, node)
          if tn.next = nx then
            let s1 : LockFreeQueue T :=
              ⟨s.heap.set t ⟨tn.value, some addr⟩, s.head, s.tail⟩
            -- cas(&q.tail, tail, node)   (result ignored)
            let s2 : LockFreeQueue T :=
              if s1.tail = t then ⟨s1.heap, s1.head, addr⟩ else s1
            some s2
          else
            enqueueAux addr s fuel
        | some n =>
          -- cas(&q.tail, tail, next), then retry
          let s1 : LockFreeQueue T :=
            if s.tail = t then ⟨s.heap, s.head, n⟩ else s
          enqueueAux addr s1 fuel
      else
        enqueueAux addr s fuel

/-- Mirror of `Enqueue`: allocate `node := &node[T]{value: v}` (the fresh
address is the current heap length), then run the linking loop. -/
def Enqueue (q : LockFreeQueue T) (v : T) (fuel : Nat) :
    Option (LockFreeQueue T) :=
  enqueueAux q.heap.length ⟨q.heap ++ [⟨v, none⟩], q.head, q.tail⟩ fuel

/-- One-iteration-at-a-time translation of the retry loop of
`func (q *LockFreeQueue[T]) Dequeue() (v T, ok bool)`. -/
def dequeueAux : LockFreeQueue T → Nat → Option (T × Bool × LockFreeQueue T)
  | _, 0 => none
  | s, fuel + 1 =>
    -- head := load[T](&q.head); tail := load[T](&q.tail)
    let h := s.head
    let t := s.tail
    match s.heap[h]? with
    | none => none
    | some hn =>
      -- next := load[T](&head.next)
      let nx := hn.next
      -- if head == load[T](&q.head)   (sequential re-read: same state)
      if s.head = h then
        if h = t then
          match nx with
          | none =>
            -- var zero T; return zero, false
            some (default, false, s)
          | some n =>
            -- cas(&q.tail, tail, next), then retry
            let s1 : LockFreeQueue T :=
              if s.tail = t then ⟨s.heap, s.head, n⟩ else s
            dequeueAux s1 fuel
        else
          match nx with
          | none => none        -- `next.value` would dereference null
          | some n =>
            match s.heap[n]? with
            | none => none      -- `next.value` would dereference a bad pointer
            | some nn =>
              -- v := next.value   (read before the CAS)
              let v := nn.value
              -- if cas(&q.head, head, next) { return v, true }
              if s.head = h then
                some (v, true, ⟨s.heap, n, s.tail⟩)
              else
                dequeueAux s fuel
      else
        dequeueAux s fuel

/-- Mirror of `Dequeue`: run the loop with the given fuel. -/
def Dequeue (q : LockFreeQueue T) (fuel : Nat) :
    Option (T × Bool × LockFreeQueue T) :=
  dequeueAux q fuel

/-!
## Abstraction

`Seg heap a vs t` states that starting from address `a` and following
`next` pointers one reaches `t`, and that the values stored in the nodes
strictly after `a` (up to and including `t`) are exactly `vs`.  This is
the spec-side view of Invariants A–C: the node at `a` plays the dummy
role, the queue's logical contents are `vs`.
-/

/-- Relation `Seg heap a vs t`: starting from address `a` and following `next`
pointers one reaches `t`, and the values stored in the nodes strictly
after `a` (up to and including `t`) are exactly `vs`. -/
def Seg (heap : List (node T)) : Nat → List T → Nat → Prop
  | a, [], t => a = t
  | a, v :: vs, t =>
    ∃ nd b nb, heap[a]? = some nd ∧ nd.next = some b ∧
      heap[b]? = some nb ∧ nb.value = v ∧ Seg heap b vs t

/-- The queue `q` represents the abstract FIFO contents `c`: the chain
from `head` to `tail` carries the values `c`, and `tail` is the last
node of the list (its `next` is null). -/
def ReprQ (q : LockFreeQueue T) (c : List T) : Prop :=
  Seg q.heap q.head c q.tail ∧
    ∃ tn, q.heap[q.tail]? = some tn ∧ tn.next = none

/-!
## Canonical results of the two operations on well-formed states

In a sequential execution every consistency check and every CAS of the
first loop iteration succeeds, so on any state that represents some
abstract contents both operations finish their very first iteration,
whatever the remaining fuel.
-/

/-- The state `Enqueue` produces from a well-formed state: the fresh node
is appended at address `q.heap.length`, the old tail's `next` is CASed
from null to it, and `tail` is swung to it. -/
def enqResult (q : LockFreeQueue T) (v : T) : LockFreeQueue T :=
  let heap1 : List (node T) := q.heap ++ [⟨v, none⟩]
  match heap1[q.tail]? with
  | some tn =>
    ⟨heap1.set q.tail ⟨tn.value, some q.heap.length⟩, q.head, q.heap.length⟩
  | none => ⟨heap1, q.head, q.tail⟩

/-- The result `Dequeue` produces from a well-formed state: empty return
when the head's `next` is null, otherwise the successor's value with
`head` swung to the successor. -/
def deqResult (q : LockFreeQueue T) : T × Bool × LockFreeQueue T :=
  match q.heap[q.head]? with
  | none => (default, false, q)
  | some hn =>
    match hn.next with
    | none => (default, false, q)
    | some n =>
      match q.heap[n]? with
      | none => (default, false, q)
      | some nn => (nn.value, true, ⟨q.heap, n, q.tail⟩)

/-!
## The abstract effect of the two operations
-/

/-- The heap produced by a successful enqueue: the fresh node is
appended and the old tail (holding value `tv`) gets it as successor. -/
def enqHeap (heap : List (node T)) (t : Nat) (tv v : T) : List (node T) :=
  (heap ++ [(⟨v, none⟩ : node T)]).set t ⟨tv, some heap.length⟩

/-!
## Sequential runs
-/

/-- Enqueue the values of `vs` one after the other (single caller). -/
def enqAll (q : LockFreeQueue T) : List T → Option (LockFreeQueue T)
  | [] => some q
  | v :: vs =>
    match Enqueue q v 1 with
    | some q' => enqAll q' vs
    | none => none

/-- Call `Dequeue` `n` times (single caller), collecting the `(value, ok)`
results. -/
def deqN (q : LockFreeQueue T) :
    Nat → Option (List (T × Bool) × LockFreeQueue T)
  | 0 => some ([], q)
  | n + 1 =>
    (Dequeue q 1).bind fun r =>
      (deqN r.2.2 n).map fun p => ((r.1, r.2.1) :: p.1, p.2)

/-!
## Traces and reachability

A state is reachable when a single caller built it from `New` by some
sequence of `Enqueue` and `Dequeue` calls (each with whatever fuel made
it return).  The trace records, in order, every enqueued value, every
successfully dequeued value, and every empty-return.
-/

inductive Op (T : Type) where
  | enq : T → Op T
  | deqOk : T → Op T
  | deqEmpty : Op T

/-- The value an operation enqueued, if any. -/
def opEnq : Op T → Option T
  | Op.enq v => some v
  | _ => none

/-- The value an operation dequeued with success, if any. -/
def opDeq : Op T → Option T
  | Op.deqOk v => some v
  | _ => none

/-- All values enqueued along a trace, oldest first. -/
def enqVals (ops : List (Op T)) : List T :=
  ops.filterMap opEnq

/-- All values returned by successful dequeues along a trace, oldest
first. -/
def deqVals (ops : List (Op T)) : List T :=
  ops.filterMap opDeq

inductive Trace : LockFreeQueue T → List (Op T) → Prop where
  | init : Trace (New T) []
  | enq : ∀ {q ops v fuel q'}, Trace q ops →
      Enqueue q v fuel = some q' → Trace q' (ops ++ [Op.enq v])
  | deqOk : ∀ {q ops v fuel q'}, Trace q ops →
      Dequeue q fuel = some (v, true, q') → Trace q' (ops ++ [Op.deqOk v])
  | deqEmpty : ∀ {q ops v fuel q'}, Trace q ops →
      Dequeue q fuel = some (v, false, q') → Trace q' (ops ++ [Op.deqEmpty])

/-- A state a single caller can build from the fresh queue. -/
def Reachable (q : LockFreeQueue T) : Prop :=
  ∃ ops, Trace q ops

/-- One call of either operation, with any fuel, by any caller. -/
inductive Step : LockFreeQueue T → LockFreeQueue T → Prop where
  | enq : ∀ {q : LockFreeQueue T} {v : T} {fuel : Nat} {q'},
      Enqueue q v fuel = some q' → Step q q'
  | deq : ∀ {q : LockFreeQueue T} {fuel : Nat} {v ok q'},
      Dequeue q fuel = some (v, ok, q') → Step q q'

/-- Any finite sequence of operation calls. -/
inductive Steps : LockFreeQueue T → LockFreeQueue T → Prop where
  | refl : ∀ q, Steps q q
  | snoc : ∀ {q q' q''}, Steps q q' → Step q' q'' → Steps q q''

theorem reprQ_new : ReprQ (New T) [] :=
  ⟨rfl, ⟨default, none⟩, rfl, rfl⟩

theorem reprQ_head_valid {q : LockFreeQueue T} {c}
    (h : ReprQ q c) : ∃ nd, q.heap[q.head]? = some nd := by
  obtain ⟨hs, tn, ht, -⟩ := h
  cases c with
  | nil =>
    have h : q.head = q.tail := hs
    exact ⟨tn, h ▸ ht⟩
  | cons v vs =>
    obtain ⟨nd, b, nb, ha, -⟩ := hs
    exact ⟨nd, ha⟩

/-- If the chain is nonempty then the head is not the tail: the node at
the head has a non-null `next`, while the tail's `next` is null. -/
theorem head_ne_tail_of_next {heap : List (node T)} {a t : Nat}
    {nd tn : node T} {b : Nat}
    (ha : heap[a]? = some nd) (hab : nd.next = some b)
    (ht : heap[t]? = some tn) (htn : tn.next = none) : a ≠ t := by
  intro h
  subst h
  rw [ha] at ht
  cases ht
  rw [htn] at hab
  cases hab

/-- No node on a null-terminated chain points back at itself. -/
theorem seg_no_self_loop {heap : List (node T)} {vs : List T} {a t : Nat}
    {nd tn : node T}
    (hs : Seg heap a vs t) (ha : heap[a]? = some nd)
    (haa : nd.next = some a) (ht : heap[t]? = some tn)
    (htn : tn.next = none) : False := by
  induction vs generalizing a nd with
  | nil =>
    have h : a = t := hs
    subst h
    rw [ha] at ht
    cases ht
    rw [htn] at haa
    cases haa
  | cons v vs ih =>
    obtain ⟨nd2, b, nb, ha2, hab, hnb, hv, hs2⟩ := hs
    rw [ha] at ha2
    cases ha2
    rw [haa] at hab
    cases hab
    exact ih hs2 ha haa

theorem enqueue_zero (q : LockFreeQueue T) (v : T) : Enqueue q v 0 = none :=
  rfl

theorem dequeue_zero (q : LockFreeQueue T) : Dequeue q 0 = none :=
  rfl

theorem enqueue_eq {q : LockFreeQueue T} {c : List T}
    (h : ReprQ q c) (v : T) (f : Nat) :
    Enqueue q v (f + 1) = some (enqResult q v) := by
  obtain ⟨-, tn, ht, htn⟩ := h
  have hlt : q.tail < q.heap.length := (List.getElem?_eq_some.mp ht).1
  have ht1 : (q.heap ++ [⟨v, none⟩])[q.tail]? = some tn :=
    (List.getElem?_append_left hlt).trans ht
  unfold Enqueue enqueueAux
  simp only [ht1, htn]
  simp [enqResult, ht1]

theorem dequeue_eq {q : LockFreeQueue T} {c : List T}
    (h : ReprQ q c) (f : Nat) :
    Dequeue q (f + 1) = some (deqResult q) := by
  obtain ⟨hs, tn, ht, htn⟩ := h
  cases c with
  | nil =>
    have he : q.head = q.tail := hs
    unfold Dequeue dequeueAux
    rw [he]
    simp [ht, htn, deqResult, he]
  | cons v vs =>
    obtain ⟨nd, b, nb, ha, hab, hnb, hv, hs2⟩ := hs
    have hne : q.head ≠ q.tail := head_ne_tail_of_next ha hab ht htn
    unfold Dequeue dequeueAux
    simp [ha, hab, hnb, hne, deqResult]

/-- In the enqueue-updated heap, any valid address still holds a node
with the same value (only the old tail's `next` changes, and a node is
appended). -/
theorem enq_heap_value {heap : List (node T)} {t x : Nat} {tn nd : node T}
    (v : T) (ht : heap[t]? = some tn) (hx : heap[x]? = some nd) :
    ∃ nd', (enqHeap heap t tn.value v)[x]? = some nd' ∧
      nd'.value = nd.value := by
  have hxlt : x < heap.length := (List.getElem?_eq_some.mp hx).1
  by_cases hxt : x = t
  · subst hxt
    rw [hx] at ht
    cases ht
    refine ⟨⟨tn.value, some heap.length⟩, ?_, rfl⟩
    unfold enqHeap
    exact List.getElem?_set_self (by simp; omega)
  · refine ⟨nd, ?_, rfl⟩
    unfold enqHeap
    rw [List.getElem?_set_ne (fun h => hxt h.symm),
      List.getElem?_append_left hxlt]
    exact hx

/-- In the enqueue-updated heap, any valid address other than the old
tail holds the exact same node. -/
theorem enq_heap_ne {heap : List (node T)} {t x : Nat} {nd : node T}
    (tv v : T) (hxt : x ≠ t) (hx : heap[x]? = some nd) :
    (enqHeap heap t tv v)[x]? = some nd := by
  have hxlt : x < heap.length := (List.getElem?_eq_some.mp hx).1
  unfold enqHeap
  rw [List.getElem?_set_ne (fun h => hxt h.symm),
    List.getElem?_append_left hxlt]
  exact hx

/-- The fresh node sits at address `heap.length` with a null `next`. -/
theorem enq_heap_fresh {heap : List (node T)} {t : Nat} (tv v : T)
    (htlt : t < heap.length) :
    (enqHeap heap t tv v)[heap.length]? = some ⟨v, none⟩ := by
  unfold enqHeap
  rw [List.getElem?_set_ne (Nat.ne_of_lt htlt)]
  exact List.getElem?_concat_length _ _

/-- Linking a fresh node after the old tail extends the chain by the new
value. -/
theorem seg_snoc {heap : List (node T)} {h0 t : Nat} {c : List T}
    {tn : node T} (v : T) (hs : Seg heap h0 c t)
    (ht : heap[t]? = some tn) (htn : tn.next = none) :
    Seg (enqHeap heap t tn.value v) h0 (c ++ [v]) heap.length := by
  have htlt : t < heap.length := (List.getElem?_eq_some.mp ht).1
  induction c generalizing h0 with
  | nil =>
    have h : h0 = t := hs
    subst h
    refine ⟨⟨tn.value, some heap.length⟩, heap.length, ⟨v, none⟩,
      ?_, rfl, ?_, rfl, rfl⟩
    · exact List.getElem?_set_self (by simp; omega)
    · exact enq_heap_fresh tn.value v htlt
  | cons w c ih =>
    obtain ⟨nd, b, nb, ha, hab, hnb, hv, hs2⟩ := hs
    have hat : h0 ≠ t := head_ne_tail_of_next ha hab ht htn
    obtain ⟨nb', hnb', hval⟩ := enq_heap_value v ht hnb
    exact ⟨nd, b, nb', enq_heap_ne tn.value v hat ha, hab, hnb',
      hval.trans hv, ih hs2⟩

/-- Applying `enqResult` takes a state representing `c` to a state representing
`c ++ [v]`, leaves `head` where it was, and preserves the value stored
at every previously valid address. -/
theorem reprQ_enqResult {q : LockFreeQueue T} {c : List T}
    (h : ReprQ q c) (v : T) :
    ReprQ (enqResult q v) (c ++ [v]) ∧ (enqResult q v).head = q.head ∧
      ∀ (x : Nat) (nd : node T), q.heap[x]? = some nd →
        ∃ nd', (enqResult q v).heap[x]? = some nd' ∧
          nd'.value = nd.value := by
  obtain ⟨hs, tn, ht, htn⟩ := h
  have htlt : q.tail < q.heap.length := (List.getElem?_eq_some.mp ht).1
  have ht1 : (q.heap ++ [(⟨v, none⟩ : node T)])[q.tail]? = some tn :=
    (List.getElem?_append_left htlt).trans ht
  have hres : enqResult q v =
      ⟨enqHeap q.heap q.tail tn.value v, q.head, q.heap.length⟩ := by
    unfold enqResult enqHeap
    simp [ht1]
  rw [hres]
  refine ⟨⟨seg_snoc v hs ht htn, ⟨v, none⟩,
    enq_heap_fresh tn.value v htlt, rfl⟩, rfl, ?_⟩
  intro x nd hx
  exact enq_heap_value v ht hx

/-- Evaluating `deqResult` on an empty state returns the zero value, `false`, and
the unchanged state. -/
theorem deqResult_nil {q : LockFreeQueue T} (h : ReprQ q []) :
    deqResult q = (default, false, q) := by
  obtain ⟨hs, tn, ht, htn⟩ := h
  have he : q.head = q.tail := hs
  unfold deqResult
  rw [he, ht]
  simp [htn]

/-- Evaluating `deqResult` on a state representing `v :: c` returns `v` with
success, swings `head` to the successor, and the new state represents
`c` over the unchanged heap. -/
theorem deqResult_cons {q : LockFreeQueue T} {v : T} {c : List T}
    (h : ReprQ q (v :: c)) :
    ∃ b, deqResult q = (v, true, ⟨q.heap, b, q.tail⟩) ∧
      ReprQ (⟨q.heap, b, q.tail⟩ : LockFreeQueue T) c ∧
      ∃ nb, q.heap[b]? = some nb ∧ nb.value = v := by
  obtain ⟨hs, tn, ht, htn⟩ := h
  obtain ⟨nd, b, nb, ha, hab, hnb, hv, hs2⟩ := hs
  refine ⟨b, ?_, ⟨hs2, tn, ht, htn⟩, nb, hnb, hv⟩
  unfold deqResult
  rw [ha]
  simp [hab, hnb, hv]

theorem dequeue_empty {q : LockFreeQueue T} (h : ReprQ q []) (f : Nat) :
    Dequeue q (f + 1) = some (default, false, q) := by
  rw [dequeue_eq h f, deqResult_nil h]

theorem dequeue_cons {q : LockFreeQueue T} {v : T} {c : List T}
    (h : ReprQ q (v :: c)) (f : Nat) :
    ∃ b, Dequeue q (f + 1) = some (v, true, ⟨q.heap, b, q.tail⟩) ∧
      ReprQ (⟨q.heap, b, q.tail⟩ : LockFreeQueue T) c := by
  obtain ⟨b, hr, hrep, -⟩ := deqResult_cons h
  exact ⟨b, by rw [dequeue_eq h f, hr], hrep⟩

theorem enqAll_spec {q : LockFreeQueue T} {c : List T} (vs : List T)
    (h : ReprQ q c) :
    ∃ q', enqAll q vs = some q' ∧ ReprQ q' (c ++ vs) := by
  induction vs generalizing q c with
  | nil => exact ⟨q, rfl, by simpa using h⟩
  | cons v vs ih =>
    obtain ⟨hrep, -, -⟩ := reprQ_enqResult h v
    obtain ⟨q', hq', hrep'⟩ := ih hrep
    refine ⟨q', ?_, by simpa using hrep'⟩
    unfold enqAll
    rw [enqueue_eq h v 0]
    exact hq'

theorem deqN_spec {q : LockFreeQueue T} {c : List T} (h : ReprQ q c) :
    ∃ qf, deqN q c.length = some (c.map fun v => (v, true), qf) ∧
      ReprQ qf [] := by
  induction c generalizing q with
  | nil => exact ⟨q, rfl, h⟩
  | cons v c ih =>
    obtain ⟨b, hd, hrep⟩ := dequeue_cons h 0
    obtain ⟨qf, hqf, hrepf⟩ := ih hrep
    refine ⟨qf, ?_, hrepf⟩
    rw [List.length_cons]
    unfold deqN
    rw [hd]
    simp [hqf]

theorem deqN_add {q q1 qf : LockFreeQueue T} {rs rs2 : List (T × Bool)}
    {m n : Nat} (h1 : deqN q m = some (rs, q1))
    (h2 : deqN q1 n = some (rs2, qf)) :
    deqN q (m + n) = some (rs ++ rs2, qf) := by
  induction m generalizing q rs with
  | zero =>
    unfold deqN at h1
    cases h1
    simpa using h2
  | succ m ih =>
    rw [Nat.succ_add]
    unfold deqN at h1 ⊢
    cases hd : Dequeue q 1 with
    | none =>
      rw [hd] at h1
      simp at h1
    | some r =>
      obtain ⟨v, ok, q'⟩ := r
      rw [hd] at h1
      simp only [Option.some_bind] at h1 ⊢
      cases hx : deqN q' m with
      | none => rw [hx] at h1; cases h1
      | some p =>
        obtain ⟨rs', q1'⟩ := p
        rw [hx] at h1
        simp only [Option.map_some'] at h1
        cases h1
        rw [ih hx]
        simp

/-- Any successful `Enqueue`, whatever its fuel, produces `enqResult`. -/
theorem enqueue_succ {q q' : LockFreeQueue T} {c : List T} {v : T} {f : Nat}
    (h : ReprQ q c) (he : Enqueue q v f = some q') : q' = enqResult q v := by
  cases f with
  | zero => rw [enqueue_zero] at he; cases he
  | succ f =>
    rw [enqueue_eq h v f] at he
    cases he
    rfl

/-- Any successful `Dequeue`, whatever its fuel, produces `deqResult`. -/
theorem dequeue_succ {q : LockFreeQueue T} {c : List T} {f : Nat}
    {r : T × Bool × LockFreeQueue T}
    (h : ReprQ q c) (hd : Dequeue q f = some r) : r = deqResult q := by
  cases f with
  | zero => rw [dequeue_zero] at hd; cases hd
  | succ f =>
    rw [dequeue_eq h f] at hd
    cases hd
    rfl

/-- The sequential state invariant: a reachable state represents the
enqueued values minus the already-dequeued prefix, and its `head` node
stores the most recently consumed value (the dummy zero value while no
dequeue has succeeded yet) — Invariants A and B of the specification. -/
theorem trace_inv {q : LockFreeQueue T} {ops : List (Op T)}
    (h : Trace q ops) :
    ∃ c, ReprQ q c ∧ enqVals ops = deqVals ops ++ c ∧
      ∃ hn, q.heap[q.head]? = some hn ∧
        hn.value = ((deqVals ops).getLast?).getD default := by
  induction h with
  | init => exact ⟨[], reprQ_new, rfl, ⟨default, none⟩, rfl, rfl⟩
  | @enq q ops v fuel q' ht he ih =>
    obtain ⟨c, hrep, hvals, hn, hhn, hval⟩ := ih
    have hq' : q' = enqResult q v := enqueue_succ hrep he
    subst hq'
    obtain ⟨hrep', hhead, hpres⟩ := reprQ_enqResult hrep v
    obtain ⟨hn', hhn', hval'⟩ := hpres q.head hn hhn
    refine ⟨c ++ [v], hrep', ?_, hn', ?_, ?_⟩
    · simp only [enqVals, deqVals, List.filterMap_append]
      simp [enqVals, deqVals] at hvals
      simp [hvals, opEnq, opDeq]
    · rw [hhead]
      exact hhn'
    · rw [hval', hval]
      simp [deqVals, List.filterMap_append, opDeq]
  | @deqOk q ops v fuel q' ht hd ih =>
    obtain ⟨c, hrep, hvals, hn, hhn, hval⟩ := ih
    have hr := dequeue_succ hrep hd
    cases c with
    | nil =>
      rw [deqResult_nil hrep] at hr
      cases hr
    | cons w c' =>
      obtain ⟨b, hdr, hrep', nb, hnb, hnbv⟩ := deqResult_cons hrep
      rw [hdr] at hr
      cases hr
      refine ⟨c', hrep', ?_, nb, hnb, ?_⟩
      · simp only [enqVals, deqVals, List.filterMap_append]
        simp [enqVals, deqVals] at hvals
        simp [hvals, opEnq, opDeq]
      · rw [hnbv]
        simp [deqVals, List.filterMap_append, opDeq]
  | @deqEmpty q ops v fuel q' ht hd ih =>
    obtain ⟨c, hrep, hvals, hn, hhn, hval⟩ := ih
    have hr := dequeue_succ hrep hd
    cases c with
    | cons w c' =>
      obtain ⟨b, hdr, -, -⟩ := deqResult_cons hrep
      rw [hdr] at hr
      cases hr
    | nil =>
      rw [deqResult_nil hrep] at hr
      cases hr
      refine ⟨[], hrep, ?_, hn, hhn, ?_⟩
      · simp only [enqVals, deqVals, List.filterMap_append]
        simp [enqVals, deqVals] at hvals
        simp [hvals, opEnq, opDeq]
      · rw [hval]
        simp [deqVals, List.filterMap_append, opDeq]

/-!
## The append-only discipline (Invariant D)

`Dequeue` never writes to any node, and the only store `Enqueue`
performs into an existing node is the CAS of the tail's `next` from null
to the fresh address — so a non-null `next` is never overwritten.  These
lemmas hold for every state, not only reachable ones.
-/

theorem dequeueAux_heap {s : LockFreeQueue T} {f : Nat}
    {r : T × Bool × LockFreeQueue T}
    (h : dequeueAux s f = some r) : r.2.2.heap = s.heap := by
  induction f generalizing s with
  | zero => exact absurd h (by simp [dequeueAux])
  | succ f ih =>
    unfold dequeueAux at h
    dsimp only at h
    split at h
    · cases h
    · split at h
      · split at h
        · split at h
          · cases h
            rfl
          · split at h
            · have hh := ih h
              exact hh
            · have hh := ih h
              exact hh
        · split at h
          · cases h
          · split at h
            · cases h
            · cases h
              rfl
      · have hh := ih h
        exact hh

theorem dequeue_heap {q : LockFreeQueue T} {f : Nat}
    {r : T × Bool × LockFreeQueue T}
    (h : Dequeue q f = some r) : r.2.2.heap = q.heap :=
  dequeueAux_heap h

theorem enqueueAux_next {addr : Nat} {s s' : LockFreeQueue T} {f : Nat}
    (h : enqueueAux addr s f = some s') {x b : Nat} {nd : node T}
    (hx : s.heap[x]? = some nd) (hb : nd.next = some b) :
    ∃ nd', s'.heap[x]? = some nd' ∧ nd'.next = some b ∧
      nd'.value = nd.value := by
  induction f generalizing s with
  | zero => exact absurd h (by simp [enqueueAux])
  | succ f ih =>
    unfold enqueueAux at h
    dsimp only at h
    split at h
    · cases h
    · split at h
      · split at h
        · split at h
          · cases h
            refine ⟨nd, ?_, hb, rfl⟩
            have hxt : x ≠ s.tail := by
              intro hxe
              subst hxe
              simp_all
            rw [List.getElem?_set_ne (fun hh => hxt hh.symm)]
            exact hx
          · have hh := ih h hx
            exact hh
        · have hh := ih h hx
          exact hh
      · have hh := ih h hx
        exact hh

theorem enqueue_next {q q' : LockFreeQueue T} {v : T} {f : Nat}
    (h : Enqueue q v f = some q') {x b : Nat} {nd : node T}
    (hx : q.heap[x]? = some nd) (hb : nd.next = some b) :
    ∃ nd', q'.heap[x]? = some nd' ∧ nd'.next = some b ∧
      nd'.value = nd.value := by
  have hxlt : x < q.heap.length := (List.getElem?_eq_some.mp hx).1
  have hx1 : (q.heap ++ [(⟨v, none⟩ : node T)])[x]? = some nd :=
    (List.getElem?_append_left hxlt).trans hx
  exact enqueueAux_next h hx1 hb

theorem step_next_mono {q q' : LockFreeQueue T} (h : Step q q')
    {x b : Nat} {nd : node T} (hx : q.heap[x]? = some nd)
    (hb : nd.next = some b) :
    ∃ nd', q'.heap[x]? = some nd' ∧ nd'.next = some b ∧
      nd'.value = nd.value := by
  cases h with
  | enq he => exact enqueue_next he hx hb
  | deq hd =>
    refine ⟨nd, ?_, hb, rfl⟩
    have hh := dequeue_heap hd
    rw [hh]
    exact hx

theorem steps_next_mono {q q' : LockFreeQueue T} (h : Steps q q')
    {x b : Nat} {nd : node T} (hx : q.heap[x]? = some nd)
    (hb : nd.next = some b) :
    ∃ nd', q'.heap[x]? = some nd' ∧ nd'.next = some b := by
  induction h with
  | refl => exact ⟨nd, hx, hb⟩
  | snoc hs hstep ih =>
    obtain ⟨nd1, hx1, hb1⟩ := ih
    obtain ⟨nd2, hx2, hb2, -⟩ := step_next_mono hstep hx1 hb1
    exact ⟨nd2, hx2, hb2⟩

/-- A successful `Dequeue` leaves the heap untouched and afterwards the
node at the (new) head still stores the returned value. -/
theorem dequeueAux_true {s : LockFreeQueue T} {f : Nat} {v : T}
    {q' : LockFreeQueue T} (h : dequeueAux s f = some (v, true, q')) :
    q'.heap = s.heap ∧ ∃ nd, s.heap[q'.head]? = some nd ∧
      nd.value = v := by
  induction f generalizing s with
  | zero => exact absurd h (by simp [dequeueAux])
  | succ f ih =>
    unfold dequeueAux at h
    dsimp only at h
    split at h
    · cases h
    · split at h
      · split at h
        · split at h
          · simp at h
          · split at h
            · have hh := ih h
              exact hh
            · have hh := ih h
              exact hh
        · split at h
          · cases h
          · split at h
            · cases h
            · cases h
              exact ⟨rfl, _, by assumption, rfl⟩
      · have hh := ih h
        exact hh

/-!
## The claims
-/

/-- C1: for every sequence of values enqueued by a single caller and
then dequeued by a single caller, the successful `Dequeue` calls return
the values in exactly the order they were passed to `Enqueue`. -/
theorem fifo_single_producer_single_consumer (T : Type) [Inhabited T]
    (vs : List T) :
    ∃ q qf, enqAll (New T) vs = some q ∧
      deqN q vs.length = some (vs.map fun v => (v, true), qf) := by
  obtain ⟨q, hq, hrep⟩ := enqAll_spec vs reprQ_new
  rw [List.nil_append] at hrep
  obtain ⟨qf, hqf, -⟩ := deqN_spec hrep
  exact ⟨q, qf, hq, hqf⟩

theorem filter_ok_of_run (vs : List T) :
    ((((vs.map fun v => (v, true)) ++ [((default : T), false)]).filter
        fun r => r.2).map fun r => r.1) = vs := by
  induction vs with
  | nil => rfl
  | cons v vs ih =>
    simpa [List.filter_cons, List.map_cons] using ih

/-- C2: after enqueueing the values `vs`, exactly `vs.length` dequeues
succeed, the next one reports empty, and the successful results are
exactly `vs` (in particular the same multiset: nothing lost, nothing
duplicated). -/
theorem no_loss_no_duplication (T : Type) [Inhabited T] (vs : List T) :
    ∃ q qf rs, enqAll (New T) vs = some q ∧
      deqN q (vs.length + 1) = some (rs, qf) ∧
      rs = (vs.map fun v => (v, true)) ++ [(default, false)] ∧
      ((rs.filter fun r => r.2).map fun r => r.1) = vs ∧
      Multiset.ofList ((rs.filter fun r => r.2).map fun r => r.1) =
        Multiset.ofList vs := by
  obtain ⟨q, hq, hrep⟩ := enqAll_spec vs reprQ_new
  rw [List.nil_append] at hrep
  obtain ⟨qf, hqf, hrepf⟩ := deqN_spec hrep
  have hone : deqN qf 1 = some ([(default, false)], qf) := by
    unfold deqN
    rw [dequeue_empty hrepf 0]
    simp [deqN]
  have hN := deqN_add hqf hone
  refine ⟨q, qf, _, hq, hN, rfl, filter_ok_of_run vs, ?_⟩
  rw [filter_ok_of_run vs]

/-- C3: `Dequeue` on a freshly constructed queue, or on any reachable
queue whose every enqueued value has already been dequeued, returns the
zero value paired with `ok = false` and leaves the state unchanged. -/
theorem empty_dequeue_contract {q : LockFreeQueue T} {ops : List (Op T)}
    (f : Nat) (ht : Trace q ops) (hdrained : enqVals ops = deqVals ops) :
    Dequeue q (f + 1) = some (default, false, q) := by
  obtain ⟨c, hrep, hvals, -⟩ := trace_inv ht
  rw [hdrained] at hvals
  have hlen := congrArg List.length hvals
  rw [List.length_append] at hlen
  have hc : c = [] := List.eq_nil_of_length_eq_zero (by omega)
  rw [hc] at hrep
  exact dequeue_empty hrep f

theorem empty_dequeue_contract_witness :
    Trace (New Nat) ([] : List (Op Nat)) ∧
      Dequeue (New Nat) 1 = some (0, false, New Nat) :=
  ⟨Trace.init, empty_dequeue_contract 0 Trace.init rfl⟩

/-- C5: `New` allocates exactly one dummy node whose `next` is null and
points both `head` and `tail` at it (it is total, so there is no failure
condition). -/
theorem new_queue_shape (T : Type) [Inhabited T] :
    (New T).head = (New T).tail ∧ (New T).heap.length = 1 ∧
      (New T).heap[(New T).head]? = some ⟨default, none⟩ :=
  ⟨rfl, rfl, rfl⟩

/-- C6: starting from any reachable state, along any further sequence of
operations, a node whose `next` has become non-null keeps that exact
`next` forever — the list is append-only, only `head` and `tail` move. -/
theorem next_pointer_write_once {q q' : LockFreeQueue T}
    (hreach : Reachable q) (hs : Steps q q') {x b : Nat} {nd : node T}
    (hx : q.heap[x]? = some nd) (hb : nd.next = some b) :
    ∃ nd', q'.heap[x]? = some nd' ∧ nd'.next = some b := by
  obtain ⟨-, -⟩ := hreach
  exact steps_next_mono hs hx hb

theorem next_pointer_write_once_witness :
    Reachable (⟨[⟨0, some 1⟩, ⟨5, none⟩], 0, 1⟩ : LockFreeQueue Nat) ∧
      (⟨[⟨0, some 1⟩, ⟨5, none⟩], 0, 1⟩ :
          LockFreeQueue Nat).heap[0]? = some ⟨0, some 1⟩ ∧
      ∃ nd', (⟨[⟨0, some 1⟩, ⟨5, none⟩], 1, 1⟩ :
          LockFreeQueue Nat).heap[0]? = some nd' ∧ nd'.next = some 1 :=
  ⟨⟨[Op.enq 5], Trace.enq Trace.init (show Enqueue (New Nat) 5 1 =
      some ⟨[⟨0, some 1⟩, ⟨5, none⟩], 0, 1⟩ by decide)⟩, rfl,
    next_pointer_write_once
      ⟨[Op.enq 5], Trace.enq Trace.init (show Enqueue (New Nat) 5 1 =
        some ⟨[⟨0, some 1⟩, ⟨5, none⟩], 0, 1⟩ by decide)⟩
      (Steps.snoc (Steps.refl _)
        (Step.deq (show Dequeue (⟨[⟨0, some 1⟩, ⟨5, none⟩], 0, 1⟩ :
            LockFreeQueue Nat) 1 =
          some (5, true, ⟨[⟨0, some 1⟩, ⟨5, none⟩], 1, 1⟩) by decide)))
      rfl rfl⟩

/-- C7: in every reachable state the `head` node's value has already
been consumed (it is the dummy zero value while nothing has been
dequeued, and the most recently dequeued value afterwards), and a
successful `Dequeue` returns the value of `head`'s successor — an
address different from `head` itself — never the value of `head`. -/
theorem head_logically_removed {q : LockFreeQueue T} {ops : List (Op T)}
    (ht : Trace q ops) :
    (∃ hn, q.heap[q.head]? = some hn ∧
        hn.value = ((deqVals ops).getLast?).getD default) ∧
    ∀ (f : Nat) (v : T) (q' : LockFreeQueue T),
      Dequeue q f = some (v, true, q') →
      ∃ hn b nb, q.heap[q.head]? = some hn ∧ hn.next = some b ∧
        b ≠ q.head ∧ q.heap[b]? = some nb ∧ v = nb.value ∧
        q'.head = b := by
  obtain ⟨c, hrep, -, hhead⟩ := trace_inv ht
  refine ⟨hhead, ?_⟩
  intro f v q' hd
  have hr := dequeue_succ hrep hd
  cases c with
  | nil =>
    rw [deqResult_nil hrep] at hr
    simp at hr
  | cons w c' =>
    obtain ⟨hs, tn, htl, htn⟩ := hrep
    have hsFull := hs
    obtain ⟨nd2, b, nb, ha, hab, hnb, hv, hs2⟩ := hs
    have hbneq : b ≠ q.head := by
      intro hbe
      subst hbe
      exact seg_no_self_loop hsFull ha hab htl htn
    have hdr : deqResult q = (nb.value, true, ⟨q.heap, b, q.tail⟩) := by
      unfold deqResult
      rw [ha]
      simp [hab, hnb]
    rw [hdr] at hr
    simp only [Prod.mk.injEq] at hr
    obtain ⟨hv', -, hq'⟩ := hr
    exact ⟨nd2, b, nb, ha, hab, hbneq, hnb, hv', by rw [hq']⟩

theorem head_logically_removed_witness :
    (∃ hn, (New Nat).heap[(New Nat).head]? = some hn ∧
        hn.value = ((deqVals ([] : List (Op Nat))).getLast?).getD default) ∧
    ∀ (f : Nat) (v : Nat) (q' : LockFreeQueue Nat),
      Dequeue (New Nat) f = some (v, true, q') →
      ∃ hn b nb, (New Nat).heap[(New Nat).head]? = some hn ∧
        hn.next = some b ∧ b ≠ (New Nat).head ∧
        (New Nat).heap[b]? = some nb ∧ v = nb.value ∧ q'.head = b :=
  head_logically_removed Trace.init

/-- C8: any number of repeated `Dequeue` calls on an empty queue all
return the zero value with `ok = false` and leave the state (head, tail
and the heap) exactly as it was. -/
theorem idempotent_emptiness {q : LockFreeQueue T} (h : ReprQ q [])
    (n : Nat) :
    deqN q n = some (List.replicate n (default, false), q) := by
  induction n with
  | zero => rfl
  | succ n ih =>
    unfold deqN
    rw [dequeue_empty h 0]
    simp [ih, List.replicate_succ]

theorem idempotent_emptiness_witness :
    ReprQ (New Nat) [] ∧
      deqN (New Nat) 2 = some ([(0, false), (0, false)], New Nat) :=
  ⟨reprQ_new, idempotent_emptiness reprQ_new 2⟩

/-- C9: on every reachable state both operations complete with one loop
iteration of fuel — `Enqueue` always succeeds, `Dequeue` always
returns, and on an empty queue `Dequeue` returns `ok = false`
immediately rather than waiting. -/
theorem operations_total {q : LockFreeQueue T} (h : Reachable q) :
    (∀ v : T, ∃ q', Enqueue q v 1 = some q') ∧
    (∃ r, Dequeue q 1 = some r) ∧
    (ReprQ q [] → Dequeue q 1 = some (default, false, q)) := by
  obtain ⟨ops, ht⟩ := h
  obtain ⟨c, hrep, -, -⟩ := trace_inv ht
  exact ⟨fun v => ⟨enqResult q v, enqueue_eq hrep v 0⟩,
    ⟨deqResult q, dequeue_eq hrep 0⟩,
    fun he => dequeue_empty he 0⟩

theorem operations_total_witness :
    Reachable (New Nat) ∧
      ((∀ v : Nat, ∃ q', Enqueue (New Nat) v 1 = some q') ∧
        (∃ r, Dequeue (New Nat) 1 = some r) ∧
        (ReprQ (New Nat) [] →
          Dequeue (New Nat) 1 = some (default, false, New Nat))) :=
  ⟨⟨[], Trace.init⟩, operations_total ⟨[], Trace.init⟩⟩

/-- C10: after a `Dequeue` successfully returns `(v, true)`, the heap is
untouched and the node the new `head` points to still stores `v` — the
dequeued value is not cleared from the structure. -/
theorem dequeued_value_retained {q q' : LockFreeQueue T} {f : Nat}
    {v : T} (h : Dequeue q f = some (v, true, q')) :
    q'.heap = q.heap ∧ ∃ nd, q'.heap[q'.head]? = some nd ∧
      nd.value = v := by
  obtain ⟨hheap, nd, hnd, hval⟩ := dequeueAux_true h
  refine ⟨hheap, nd, ?_, hval⟩
  rw [hheap]
  exact hnd

theorem dequeued_value_retained_witness :
    Dequeue (⟨[⟨0, some 1⟩, ⟨7, none⟩], 0, 1⟩ : LockFreeQueue Nat) 1 =
        some (7, true, ⟨[⟨0, some 1⟩, ⟨7, none⟩], 1, 1⟩) ∧
      ((⟨[⟨0, some 1⟩, ⟨7, none⟩], 1, 1⟩ : LockFreeQueue Nat).heap =
          (⟨[⟨0, some 1⟩, ⟨7, none⟩], 0, 1⟩ : LockFreeQueue Nat).heap ∧
        ∃ nd, (⟨[⟨0, some 1⟩, ⟨7, none⟩], 1, 1⟩ :
            LockFreeQueue Nat).heap[(⟨[⟨0, some 1⟩, ⟨7, none⟩], 1, 1⟩ :
            LockFreeQueue Nat).head]? = some nd ∧ nd.value = 7) :=
  ⟨by decide, dequeued_value_retained
    (show Dequeue (⟨[⟨0, some 1⟩, ⟨7, none⟩], 0, 1⟩ : LockFreeQueue Nat) 1 =
        some (7, true, ⟨[⟨0, some 1⟩, ⟨7, none⟩], 1, 1⟩) by decide)⟩

